import Mathlib

/-!
Verification development for the chunking / dedup-store / retrieval core of the
UMS_BastiAI repository.  The Python sources are shallowly embedded:

* `src/chunking/semantic_chunker.py` — segment combination, the four chunking
  strategies and the proportional timestamp reconstruction;
* `src/embedding/embedding_generator.py` — the Supabase store model
  (`insert_chunks`, `_check_existing_chunks`, `_get_content_hash`,
  `search_similar_chunks`, `_cosine_similarity`).

Python floats are modelled as exact rationals (`ℚ`); the store is a list of
rows in insertion order (Supabase fetches are modelled as returning rows in
that order); `uuid` / logging / batching-into-100s do not affect any claimed
observable and are omitted (batched inserts append the same rows in the same
order as one append).  Python's `sorted`/`list.sort` is a stable sort, modelled
by `List.insertionSort` with the corresponding reflexive total preorder, which
is extensionally the unique stable sort.  `hashlib.md5` of the normalized text
is modelled as the normalized text itself (an injective fingerprint; the code
uses the hash only for equality of normalized texts, assuming no collisions).
-/

/-- Model of `TranscriptionSegment` (src/transcription/whisper_client.py):
start/end in seconds, transcribed text, optional speaker. The unused
`confidence` field is omitted. -/
structure TranscriptionSegment where
  start : ℚ
  «end» : ℚ
  text : String
  speaker : Option String := none
deriving DecidableEq

/-- Model of `ChunkingStrategy` (config/chunking_config.py). The `description`
field is omitted (unused by the algorithms). -/
structure ChunkingStrategy where
  name : String
  max_chunk_size : ℕ
  min_chunk_size : ℕ
  overlap : ℕ
  semantic_threshold : ℚ
deriving DecidableEq

/-- `CHUNKING_STRATEGIES["semantic"]` from config/chunking_config.py. -/
def semanticStrategy : ChunkingStrategy :=
  { name := "semantic", max_chunk_size := 400, min_chunk_size := 100, overlap := 50,
    semantic_threshold := 7/10 }

/-- `CHUNKING_STRATEGIES["recursive"]` from config/chunking_config.py. -/
def recursiveStrategy : ChunkingStrategy :=
  { name := "recursive", max_chunk_size := 500, min_chunk_size := 100, overlap := 50,
    semantic_threshold := 0 }

/-- `CHUNKING_STRATEGIES["fixed"]` from config/chunking_config.py. -/
def fixedStrategy : ChunkingStrategy :=
  { name := "fixed", max_chunk_size := 400, min_chunk_size := 400, overlap := 0,
    semantic_threshold := 0 }

/-- `CHUNKING_STRATEGIES["video_optimized"]` from config/chunking_config.py. -/
def videoOptimizedStrategy : ChunkingStrategy :=
  { name := "video_optimized", max_chunk_size := 600, min_chunk_size := 150, overlap := 75,
    semantic_threshold := 3/4 }

/-- Model of the `Chunk` dataclass (src/chunking/semantic_chunker.py). The
derived fields `word_count`/`character_count` (recomputed from `text` in
`__post_init__`) and the constant `metadata` dict are omitted. -/
structure Chunk where
  text : String
  start_timestamp : ℚ
  end_timestamp : ℚ
  chunk_index : ℕ
  video_id : String
deriving DecidableEq

/-- Python `str.strip()` on a character list: drop whitespace from both ends.
(Implemented on `List Char` so that it reduces in the kernel; `String.trim`
has the same meaning but is defined by well-founded recursion.) -/
def pyStripList (l : List Char) : List Char :=
  ((l.dropWhile Char.isWhitespace).reverse.dropWhile Char.isWhitespace).reverse

/-- Python `str.strip()`. -/
def pyStrip (s : String) : String :=
  String.mk (pyStripList s.data)

/-- Splitting a character list at every character satisfying `p`, keeping the
(possibly empty) pieces between delimiters — the semantics of Python
`re.split` on a single-character class. -/
def splitCharsAux (p : Char → Bool) : List Char → List Char → List (List Char)
  | [], acc => [acc.reverse]
  | c :: cs, acc => if p c then acc.reverse :: splitCharsAux p cs [] else splitCharsAux p cs (c :: acc)

/-- String split on a character predicate. -/
def pySplit (p : Char → Bool) (s : String) : List String :=
  (splitCharsAux p s.data []).map String.mk

/-- `sep.join(parts)`. -/
def pyJoin (sep : String) : List String → String
  | [] => ""
  | [s] => s
  | s :: rest => s ++ sep ++ pyJoin sep rest

/-- Python `str.lower()` (ASCII-adequate, via `Char.toLower`). -/
def pyLower (s : String) : String :=
  String.mk (s.data.map Char.toLower)

/-- Python slice `s[i:j]` for `0 ≤ i ≤ j` (out-of-range `j` is clipped, as in
Python). -/
def pySlice (s : String) (i j : ℕ) : String :=
  String.mk ((s.data.drop i).take (j - i))

/-- Python `range(start, stop, step)` for a positive `step`; `step = 0` is
modelled as the empty range (Python raises `ValueError` there; it is never
reached with the configured strategies, whose strides are positive). -/
def pyRange (start stop step : ℕ) : List ℕ :=
  if step = 0 then [] else (List.range ((stop - start + step - 1) / step)).map (fun k => start + k * step)

/-- `SemanticChunker._combine_segments`: join the stripped, non-empty segment
texts with single spaces. -/
def _combine_segments (segments : List TranscriptionSegment) : String :=
  pyJoin " " ((segments.map (fun s => pyStrip s.text)).filter (fun t => t != ""))

/-- `SemanticChunker._split_into_sentences`: `re.split(r'[.!?]+', text)`, then
strip and drop empties.  Splitting on the character class and filtering the
empty pieces is equivalent to splitting on maximal delimiter runs. -/
def _split_into_sentences (text : String) : List String :=
  ((pySplit (fun c => c == '.' || c == '!' || c == '?') text).map pyStrip).filter (fun s => s != "")

/-- Loop body of `SemanticChunker._get_overlap_text`: walk the closed chunk's
sentences from the tail, accumulating `sentence + " " + acc` while the
accumulated length stays within `overlap`, stopping at the first failure. -/
def _overlap_loop (overlap : ℕ) : List String → String → String
  | [], acc => acc
  | s :: rest, acc =>
      if acc.length + s.length ≤ overlap then _overlap_loop overlap rest (s ++ " " ++ acc) else acc

/-- `SemanticChunker._get_overlap_text`. -/
def _get_overlap_text (overlap : ℕ) (chunk : List String) : String :=
  pyStrip (_overlap_loop overlap chunk.reverse "")

/-- First segment's start (`segments[0].start`); the code never calls this on
an empty list (strategies produce no chunks then), 0 is a junk value. -/
def videoStart : List TranscriptionSegment → ℚ
  | [] => 0
  | s :: _ => s.start

/-- Last segment's end (`segments[-1].end`). -/
def videoEnd (segments : List TranscriptionSegment) : ℚ :=
  match segments.getLast? with
  | some s => s.«end»
  | none => 0

/-- `total_text_length = sum(len(seg.text) for seg in segments)`. -/
def totalTextLength (segments : List TranscriptionSegment) : ℚ :=
  ((segments.map (fun s => s.text.length)).sum : ℕ)

/-- `estimated_total_chunks = total_text_length / avg_chunk_size` with the
fixed target size 400. -/
def estimated_total_chunks (segments : List TranscriptionSegment) : ℚ :=
  totalTextLength segments / 400

/-- Position ratio of `SemanticChunker._find_timestamps_for_text`:
`chunk_index / estimated_total_chunks` while the index is below the estimate,
else `0.95`. -/
def position_ratio (segments : List TranscriptionSegment) (chunk_index : ℕ) : ℚ :=
  if (chunk_index : ℚ) < estimated_total_chunks segments then
    (chunk_index : ℚ) / estimated_total_chunks segments
  else 19/20

/-- Chunk duration of `SemanticChunker._find_timestamps_for_text`:
`video_duration * (len(text) / total_text_length)` clamped into [10, 120].
(Python would raise on `total_text_length = 0`; that case is unreachable for a
produced chunk, and `ℚ` division by zero yields 0 here.) -/
def chunk_duration (segments : List TranscriptionSegment) (text : String) : ℚ :=
  max 10 (min (((text.length : ℚ) / totalTextLength segments) * (videoEnd segments - videoStart segments)) 120)

/-- `SemanticChunker._find_timestamps_for_text`: the proportional timestamp
reconstruction, with the `== 0` fix for non-first chunks and the two
video-end clamps, in source order. -/
def _find_timestamps_for_text (text : String) (segments : List TranscriptionSegment)
    (chunk_index : ℕ) : ℚ × ℚ :=
  let vs := videoStart segments
  let ve := videoEnd segments
  let cd := chunk_duration segments text
  let start_time := vs + position_ratio segments chunk_index * (ve - vs)
  let end_time := start_time + cd
  let start_time1 := if 0 < chunk_index ∧ start_time = 0 then 1/10 else start_time
  let end_time1 := if ve < end_time then ve else end_time
  let start_time2 := if ve < start_time1 then ve - cd else start_time1
  (start_time2, end_time1)

/-- `SemanticChunker._create_chunk_from_text`. -/
def _create_chunk_from_text (cfg : ChunkingStrategy) (segments : List TranscriptionSegment)
    (video_id : String) (text : String) (chunk_index : ℕ) : Chunk :=
  let ts := _find_timestamps_for_text text segments chunk_index
  { text := text, start_timestamp := ts.1, end_timestamp := ts.2,
    chunk_index := chunk_index, video_id := video_id }

/-- Loop of `SemanticChunker._semantic_chunking` over the sentence list, with
the accumulated sentence list, its summed sentence length and the next chunk
index as state; the empty-sentence case is the trailing-chunk flush. -/
def _semantic_loop (cfg : ChunkingStrategy) (segments : List TranscriptionSegment)
    (video_id : String) : List String → List String → ℕ → ℕ → List Chunk
  | [], cur, _, idx =>
      if cur ≠ [] then
        (let t := pyJoin " " cur
         if cfg.min_chunk_size ≤ t.length then
           [_create_chunk_from_text cfg segments video_id t idx]
         else [])
      else []
  | s :: rest, cur, cl, idx =>
      if cfg.max_chunk_size < cl + s.length ∧ cur ≠ [] then
        (let t := pyJoin " " cur
         let seeded : List String × ℕ :=
           if 0 < cfg.overlap then
             (let ov := _get_overlap_text cfg.overlap cur
              if ov ≠ "" then ([ov], ov.length) else ([], 0))
           else ([], 0)
         if cfg.min_chunk_size ≤ t.length then
           _create_chunk_from_text cfg segments video_id t idx ::
             _semantic_loop cfg segments video_id rest (seeded.1 ++ [s]) (seeded.2 + s.length) (idx + 1)
         else
           _semantic_loop cfg segments video_id rest (seeded.1 ++ [s]) (seeded.2 + s.length) idx)
      else
        _semantic_loop cfg segments video_id rest (cur ++ [s]) (cl + s.length) idx

/-- `SemanticChunker._semantic_chunking`. -/
def _semantic_chunking (cfg : ChunkingStrategy) (text : String)
    (segments : List TranscriptionSegment) (video_id : String) : List Chunk :=
  _semantic_loop cfg segments video_id (_split_into_sentences text) [] 0 0

/-- Loop of `SemanticChunker._recursive_chunking` over the window start
offsets, incrementing the chunk index only on emission. -/
def _recursive_loop (cfg : ChunkingStrategy) (segments : List TranscriptionSegment)
    (video_id : String) (text : String) : List ℕ → ℕ → List Chunk
  | [], _ => []
  | i :: rest, idx =>
      let t := pySlice text i (i + cfg.max_chunk_size)
      if cfg.min_chunk_size ≤ t.length then
        _create_chunk_from_text cfg segments video_id t idx :: _recursive_loop cfg segments video_id text rest (idx + 1)
      else
        _recursive_loop cfg segments video_id text rest idx

/-- `SemanticChunker._recursive_chunking`: sliding windows of width
`max_chunk_size` at stride `max_chunk_size - overlap`, keeping windows of
length at least `min_chunk_size`. -/
def _recursive_chunking (cfg : ChunkingStrategy) (text : String)
    (segments : List TranscriptionSegment) (video_id : String) : List Chunk :=
  _recursive_loop cfg segments video_id text
    (pyRange 0 text.length (cfg.max_chunk_size - cfg.overlap)) 0

/-- Loop of `SemanticChunker._video_optimized_chunking` over the segments,
with current text list, summed length, next index and current speaker as
state.  Each non-empty segment first closes on a speaker change (emitting if
the joined text reaches `min_chunk_size`, resetting the accumulator), then on
the size limit — which, after a speaker close just reset the accumulator,
can no longer fire, so the step has five outcomes, written out as branches —
and finally appends the stripped segment text and records the speaker. -/
def _video_loop (cfg : ChunkingStrategy) (segments : List TranscriptionSegment)
    (video_id : String) : List TranscriptionSegment → List String → ℕ → ℕ → Option String → List Chunk
  | [], cur, _, idx, _ =>
      if cur ≠ [] then
        (let t := pyJoin " " cur
         if cfg.min_chunk_size ≤ t.length then
           [_create_chunk_from_text cfg segments video_id t idx]
         else [])
      else []
  | seg :: rest, cur, cl, idx, spk =>
      let st := pyStrip seg.text
      if st = "" then _video_loop cfg segments video_id rest cur cl idx spk
      else if spk ≠ seg.speaker ∧ cur ≠ [] then
        -- speaker change: close (emit if long enough), reset, append st;
        -- the size check cannot fire on the emptied accumulator
        (let t := pyJoin " " cur
         if cfg.min_chunk_size ≤ t.length then
           _create_chunk_from_text cfg segments video_id t idx ::
             _video_loop cfg segments video_id rest [st] st.length (idx + 1) seg.speaker
         else
           _video_loop cfg segments video_id rest [st] st.length idx seg.speaker)
      else if cfg.max_chunk_size < cl + st.length ∧ cur ≠ [] then
        -- size limit: close (emit if long enough), reset, append st
        (let t := pyJoin " " cur
         if cfg.min_chunk_size ≤ t.length then
           _create_chunk_from_text cfg segments video_id t idx ::
             _video_loop cfg segments video_id rest [st] st.length (idx + 1) seg.speaker
         else
           _video_loop cfg segments video_id rest [st] st.length idx seg.speaker)
      else
        _video_loop cfg segments video_id rest (cur ++ [st]) (cl + st.length) idx seg.speaker

/-- `SemanticChunker._video_optimized_chunking`. -/
def _video_optimized_chunking (cfg : ChunkingStrategy) (text : String)
    (segments : List TranscriptionSegment) (video_id : String) : List Chunk :=
  _video_loop cfg segments video_id segments [] 0 0 none

/-- Loop of `SemanticChunker._fixed_chunking`: every window is emitted and the
index always increments. -/
def _fixed_loop (cfg : ChunkingStrategy) (segments : List TranscriptionSegment)
    (video_id : String) (text : String) : List ℕ → ℕ → List Chunk
  | [], _ => []
  | i :: rest, idx =>
      _create_chunk_from_text cfg segments video_id (pySlice text i (i + cfg.max_chunk_size)) idx ::
        _fixed_loop cfg segments video_id text rest (idx + 1)

/-- `SemanticChunker._fixed_chunking`: non-overlapping windows of width
`max_chunk_size`, the last possibly shorter, all emitted. -/
def _fixed_chunking (cfg : ChunkingStrategy) (text : String)
    (segments : List TranscriptionSegment) (video_id : String) : List Chunk :=
  _fixed_loop cfg segments video_id text (pyRange 0 text.length cfg.max_chunk_size) 0

/-- `SemanticChunker.chunk_transcription`: combine the segments and dispatch on
the configured strategy name (any unknown name falls through to fixed, as in
the source's final `else`). -/
def chunk_transcription (cfg : ChunkingStrategy) (segments : List TranscriptionSegment)
    (video_id : String) : List Chunk :=
  let text := _combine_segments segments
  if cfg.name = "semantic" then _semantic_chunking cfg text segments video_id
  else if cfg.name = "recursive" then _recursive_chunking cfg text segments video_id
  else if cfg.name = "video_optimized" then _video_optimized_chunking cfg text segments video_id
  else _fixed_chunking cfg text segments video_id

/-- A persisted `video_chunks` row (the record built in
`SupabaseClient.insert_chunks`).  The generated `uuid` id and the constant
metadata dict are omitted; the store is the list of rows in insertion order,
which is also the order Supabase fetches are modelled to return. -/
structure Row where
  video_id : String
  chunk_text : String
  chunk_index : ℕ
  start_timestamp : ℚ
  end_timestamp : ℚ
  embedding : List ℚ
deriving DecidableEq

/-- `SupabaseClient._get_content_hash`: normalize by strip, lowercase and
whitespace collapse (`" ".join(text.strip().lower().split())`).  The final
`hashlib.md5` hexdigest is modelled as the normalized text itself — an
injective fingerprint, used by the code only for equality of normalized
texts. -/
def _get_content_hash (text : String) : String :=
  pyJoin " " ((pySplit Char.isWhitespace (pyLower (pyStrip text))).filter (fun w => w != ""))

/-- The `f"{video_id}_{chunk_index}"` key used by `insert_chunks` and
`_check_existing_chunks`. -/
def chunkKey (video_id : String) (chunk_index : ℕ) : String :=
  video_id ++ "_" ++ toString chunk_index

/-- The dict `existing_content_hashes` of `_check_existing_chunks`: iterate the
fetched rows, mapping each row's content hash to that row's key; later rows
overwrite earlier ones.  Modelled as an association list consulted through
`List.lookup`, built reversed so that lookup finds the last-written binding. -/
def contentHashMap (rows : List Row) : List (String × String) :=
  (rows.map (fun r => (_get_content_hash r.chunk_text, chunkKey r.video_id r.chunk_index))).reverse

/-- The per-video body of `_check_existing_chunks`: if no row for `video_id`
exists the tier-2 check is skipped (empty result); otherwise each candidate
chunk of this video whose content hash occurs in the fetched rows contributes
the *existing row's* key to the result set. -/
def checkVideoExisting (store : List Row) (chunks : List Chunk) (video_id : String) : List String :=
  let rows := store.filter (fun r => r.video_id == video_id)
  if rows.isEmpty then []
  else (chunks.filter (fun c => c.video_id == video_id)).filterMap
    (fun c => (contentHashMap rows).lookup (_get_content_hash c.text))

/-- Helper of `dedupKeepFirst`: keep elements not seen before. -/
def dedupKeepFirstAux : List String → List String → List String
  | [], _ => []
  | x :: xs, seen =>
      if seen.contains x then dedupKeepFirstAux xs seen else x :: dedupKeepFirstAux xs (x :: seen)

/-- Python's `list(set(...))` over the chunks' video ids: unique elements,
keeping first occurrences; the union computed from it does not depend on the
order. -/
def dedupKeepFirst (l : List String) : List String :=
  dedupKeepFirstAux l []

/-- `SupabaseClient._check_existing_chunks`.  `raised : Bool` models whether
the storage queries inside the method's `try` block raise; the `except` arm
logs a warning and returns the empty set. -/
def _check_existing_chunks (raised : Bool) (store : List Row) (chunks : List Chunk) : List String :=
  if raised then []
  else (dedupKeepFirst (chunks.map (fun c => c.video_id))).flatMap (checkVideoExisting store chunks)

/-- The row `insert_chunks` builds for a new chunk/embedding pair. -/
def chunkToRow (c : Chunk) (e : List ℚ) : Row :=
  { video_id := c.video_id, chunk_text := c.text, chunk_index := c.chunk_index,
    start_timestamp := c.start_timestamp, end_timestamp := c.end_timestamp, embedding := e }

/-- `SupabaseClient.insert_chunks` (non-mock path): zip chunks with their
embeddings, drop every pair whose candidate key is in the existing-chunk set,
append the rest to the store and report success.  The early `return True` on
an all-duplicate input and the batching into 100-row inserts produce the same
final store; batches are appended in order. -/
def insert_chunks (raised : Bool) (store : List Row) (chunks : List Chunk)
    (embeddings : List (List ℚ)) : List Row × Bool :=
  let existing := _check_existing_chunks raised store chunks
  let newPairs := (chunks.zip embeddings).filter
    (fun p => !(existing.contains (chunkKey p.1.video_id p.1.chunk_index)))
  (store ++ newPairs.map (fun p => chunkToRow p.1 p.2), true)

/-- `dot(a, b)` — `sum(a * b for a, b in zip(vec1, vec2))`. -/
def dotProduct (vec1 vec2 : List ℚ) : ℚ :=
  ((vec1.zip vec2).map (fun p => p.1 * p.2)).sum

/-- `sum(a * a for a in vec)` — the quantity whose square root is the
vector's magnitude. -/
def sumSquares (vec : List ℚ) : ℚ :=
  (vec.map (fun a => a * a)).sum

/-- `SupabaseClient._cosine_similarity`.  `math.sqrt` is abstracted as the
function argument `sqrt` (instantiated in theorems by hypotheses stating it is
a square root of the two sums of squares involved); mismatched lengths return
0, as does a zero magnitude. -/
def _cosine_similarity (sqrt : ℚ → ℚ) (vec1 vec2 : List ℚ) : ℚ :=
  if vec1.length ≠ vec2.length then 0
  else
    let dot_product := dotProduct vec1 vec2
    let magnitude1 := sqrt (sumSquares vec1)
    let magnitude2 := sqrt (sumSquares vec2)
    if magnitude1 = 0 ∨ magnitude2 = 0 then 0
    else dot_product / (magnitude1 * magnitude2)

/-- The comparison `similarities.sort(key=lambda x: x[1], reverse=True)` sorts
by: `x` precedes `y` when `y`'s similarity is at most `x`'s. -/
def simGE (x y : Row × ℚ) : Prop := y.2 ≤ x.2

instance : DecidableRel simGE := fun x y => inferInstanceAs (Decidable (y.2 ≤ x.2))

instance : IsTotal (Row × ℚ) simGE := ⟨fun x y => le_total y.2 x.2⟩

instance : IsTrans (Row × ℚ) simGE := ⟨fun _ _ _ h1 h2 => le_trans h2 h1⟩

instance : IsRefl (Row × ℚ) simGE := ⟨fun x => le_refl x.2⟩

/-- The same descending comparison on bare similarity values (used to state
the ranking contract on the list of similarities). -/
def qGE (a b : ℚ) : Prop := b ≤ a

instance : DecidableRel qGE := fun a b => inferInstanceAs (Decidable (b ≤ a))

instance : IsTotal ℚ qGE := ⟨fun a b => le_total b a⟩

instance : IsTrans ℚ qGE := ⟨fun _ _ _ h1 h2 => le_trans h2 h1⟩

/-- The query scope of `search_similar_chunks`: filter by `video_id` when one
is given, else the whole table. -/
def scopeFilter (store : List Row) : Option String → List Row
  | some v => store.filter (fun r => r.video_id == v)
  | none => store

/-- `if chunk.get('embedding')`: rows with a missing/empty embedding are
skipped.  Vectors are modelled as already-parsed rational lists, so the
malformed-string skip path of the source never fires here. -/
def validRows (rows : List Row) : List Row :=
  rows.filter (fun r => !r.embedding.isEmpty)

/-- `SupabaseClient.search_similar_chunks` (non-mock path): fetch all rows in
scope (empty fetch returns `[]`), score each row with a non-empty embedding by
cosine similarity against the query, stable-sort descending by similarity
(Python's stable `list.sort` with `reverse=True`, modelled by
`List.insertionSort` under `simGE`), and return the first `limit` rows. -/
def search_similar_chunks (sqrt : ℚ → ℚ) (store : List Row) (query_embedding : List ℚ)
    (video_id : Option String) (limit : ℕ) : List Row :=
  let fetched := scopeFilter store video_id
  if fetched.isEmpty then []
  else
    let similarities := (validRows fetched).map
      (fun r => (r, _cosine_similarity sqrt query_embedding r.embedding))
    ((similarities.insertionSort simGE).take limit).map Prod.fst

-- Kernel evaluation of the larger concrete inputs below needs a deeper
-- recursion stack.
set_option maxRecDepth 40000

/-- Scenario A segments: `[(0,10,"Hallo."), (10,20,"Wie geht es dir heute?")]`. -/
def segsA : List TranscriptionSegment :=
  [{ start := 0, «end» := 10, text := "Hallo." },
   { start := 10, «end» := 20, text := "Wie geht es dir heute?" }]

/-- The fixed strategy with the Scenario A override `max_chunk_size = 15`. -/
def fixed15 : ChunkingStrategy :=
  { fixedStrategy with max_chunk_size := 15 }

/-- A placeholder chunk for total list indexing. -/
def dummyChunk : Chunk :=
  { text := "", start_timestamp := 0, end_timestamp := 0, chunk_index := 0, video_id := "" }

/-- Two chunks of one video with identical (already normalized) texts under
different indexes. -/
def c1DupChunks : List Chunk :=
  [{ text := "a", start_timestamp := 0, end_timestamp := 1, chunk_index := 0, video_id := "v1" },
   { text := "a", start_timestamp := 0, end_timestamp := 1, chunk_index := 1, video_id := "v1" }]

/-- Two chunks of one video with distinct normalized texts. -/
def c1OkChunks : List Chunk :=
  [{ text := "a", start_timestamp := 0, end_timestamp := 1, chunk_index := 0, video_id := "v1" },
   { text := "b", start_timestamp := 0, end_timestamp := 1, chunk_index := 1, video_id := "v1" }]

/-- A store holding one persisted chunk of video `v1` at index 0. -/
def c2store : List Row :=
  [{ video_id := "v1", chunk_text := "hello world", chunk_index := 0,
     start_timestamp := 0, end_timestamp := 1, embedding := [1] }]

/-- A candidate chunk for `v1` whose normalized text equals the stored row's
but whose index is shifted to 1. -/
def c2chunk : Chunk :=
  { text := "Hello  WORLD", start_timestamp := 0, end_timestamp := 1,
    chunk_index := 1, video_id := "v1" }

/-- One 451-character sentence (no sentence-ending punctuation). -/
def longSentence : String :=
  String.mk (List.replicate 451 'a')

/-- A single segment carrying the 451-character sentence. -/
def seg451 : List TranscriptionSegment :=
  [{ start := 0, «end» := 10, text := longSentence }]

/-- One 500-character segment over a very short (0.01 s) video: fixed
chunking yields two chunks, and chunk 1's reconstructed start falls strictly
between 0 and 0.1 s. -/
def c6segs : List TranscriptionSegment :=
  [{ start := 0, «end» := 1/100, text := String.mk (List.replicate 500 'a') }]

/-- A segment list on which the provisional start of chunk 1 is exactly 0
(video runs from −19 s to 1 s, so `vs + 0.95·duration = 0`). -/
def c6aSegs : List TranscriptionSegment :=
  [{ start := -19, «end» := 1, text := "x" }]

/-- A square-root stand-in that is exact on the only value the C7 witness
needs (`sqrt 25 = 5`) and zero elsewhere. -/
def sqrt25 : ℚ → ℚ :=
  fun q => if q = 25 then 5 else 0

/-- The C10 witness store: one persisted row of video `w` whose text equals
the candidate's, so a successful check would classify the candidate as a
duplicate. -/
def c10store : List Row :=
  [{ video_id := "w", chunk_text := "same text", chunk_index := 0,
     start_timestamp := 0, end_timestamp := 1, embedding := [1] }]

/-- The C10 witness candidate: an exact duplicate of the stored row. -/
def c10chunks : List Chunk :=
  [{ text := "same text", start_timestamp := 0, end_timestamp := 1,
     chunk_index := 0, video_id := "w" }]

/-- Head-with-default of a non-empty list is a member. -/
theorem headD_mem {α : Type} (l : List α) (d : α) (h : l ≠ []) : l.headD d ∈ l := by
  cases l with
  | nil => exact absurd rfl h
  | cons a t => simp [List.headD]

/-- C5 counterexample: the Scenario A claim is false on the code — the
combined text of the two segments has 29 characters (not 30), and the two
fixed windows of width 15 have widths 15 and 14 (not 15 and 15). -/
theorem scenarioA_claim_false :
    ¬ ((_combine_segments segsA).length = 30 ∧
      (chunk_transcription fixed15 segsA "v1").map (fun c => c.text.length) = [15, 15]) := by
  decide

/-- C5 amended: for the Scenario A segments under the fixed strategy with
max_chunk_size = 15, the combined text is 29 characters long and chunking
yields exactly two chunks of widths 15 and 14 whose concatenation is the
combined text (hence non-overlapping and contiguous). -/
theorem scenarioA_amended :
    (_combine_segments segsA).length = 29 ∧
    (chunk_transcription fixed15 segsA "v1").map (fun c => c.text.length) = [15, 14] ∧
    String.join ((chunk_transcription fixed15 segsA "v1").map (fun c => c.text)) =
      _combine_segments segsA := by
  exact ⟨by decide, by decide, by decide⟩

/-- C2: at the failing input — a stored row (video `v1`, index 0, text
"hello world") and a candidate with equal normalized text but shifted index
1 — the check returns the stored row's key `v1_0` rather than classifying the
candidate (key `v1_1`), so `insert_chunks` inserts the candidate and both
copies persist, contradicting the claimed shifted-index dedup tolerance. -/
theorem shifted_index_duplicate_both_persist :
    _get_content_hash c2chunk.text = _get_content_hash "hello world" ∧
    c2chunk.chunk_index = 1 ∧
    _check_existing_chunks false c2store [c2chunk] = ["v1_0"] ∧
    (insert_chunks false c2store [c2chunk] [[1]]).1.length = 2 ∧
    (insert_chunks false c2store [c2chunk] [[1]]).2 = true := by
  exact ⟨by decide, by decide, by decide, by decide, by decide⟩

/-- C9: whenever the fetch for the given optional video scope returns no
records — in particular on a completely empty store — `search_similar_chunks`
returns the empty list (the model is a total function: no exception). -/
theorem search_empty_scope_returns_nil (sqrt : ℚ → ℚ) (store : List Row) (q : List ℚ)
    (video_id : Option String) (limit : ℕ) (h : scopeFilter store video_id = []) :
    search_similar_chunks sqrt store q video_id limit = [] := by
  simp [search_similar_chunks, h]

/-- C9 witness: a search against the completely empty store returns `[]`. -/
theorem search_empty_scope_witness :
    search_similar_chunks sqrt25 [] [1] none 5 = [] :=
  search_empty_scope_returns_nil sqrt25 [] [1] none 5 rfl

/-- C10: if the existence-check query raises, `_check_existing_chunks`
returns the empty set, so `insert_chunks` treats every candidate as new,
appends all of them to the store, and still reports success — duplicate
protection is silently disabled for that call. -/
theorem check_failure_disables_dedup (store : List Row) (chunks : List Chunk)
    (embeddings : List (List ℚ)) (hlen : embeddings.length = chunks.length) :
    _check_existing_chunks true store chunks = [] ∧
    (insert_chunks true store chunks embeddings).1.length = store.length + chunks.length ∧
    (insert_chunks true store chunks embeddings).2 = true := by
  refine ⟨rfl, ?_, rfl⟩
  simp [insert_chunks, _check_existing_chunks, List.length_zip, hlen]

/-- C10 witness: with a failing check, a candidate identical to an
already-persisted row is inserted anyway (the store grows from 1 to 2 rows). -/
theorem check_failure_disables_dedup_witness :
    _check_existing_chunks true c10store c10chunks = [] ∧
    (insert_chunks true c10store c10chunks [[1]]).1.length = c10store.length + c10chunks.length ∧
    (insert_chunks true c10store c10chunks [[1]]).2 = true :=
  check_failure_disables_dedup c10store c10chunks [[1]] (by decide)

/-- C7: for equal-length vectors, `_cosine_similarity` returns the dot
product divided by the product of the magnitudes (with the 0-divided-by-0
convention agreeing with its guard), and returns exactly 0 whenever either
magnitude — the square root of the corresponding sum of squares — is 0, in
particular whenever either sum of squares is 0. -/
theorem cosine_similarity_spec (sqrt : ℚ → ℚ) (a b : List ℚ)
    (hlen : a.length = b.length)
    (ha : sqrt (sumSquares a) * sqrt (sumSquares a) = sumSquares a)
    (hb : sqrt (sumSquares b) * sqrt (sumSquares b) = sumSquares b) :
    _cosine_similarity sqrt a b = dotProduct a b / (sqrt (sumSquares a) * sqrt (sumSquares b)) ∧
    ((sqrt (sumSquares a) = 0 ∨ sqrt (sumSquares b) = 0) → _cosine_similarity sqrt a b = 0) ∧
    ((sumSquares a = 0 ∨ sumSquares b = 0) → _cosine_similarity sqrt a b = 0) := by
  have hlen' : ¬ a.length ≠ b.length := by simpa using hlen
  refine ⟨?_, ?_, ?_⟩
  · by_cases hz : sqrt (sumSquares a) = 0 ∨ sqrt (sumSquares b) = 0
    · have hprod : sqrt (sumSquares a) * sqrt (sumSquares b) = 0 := by
        rcases hz with h | h
        · rw [h, zero_mul]
        · rw [h, mul_zero]
      simp [_cosine_similarity, hlen', hz, hprod]
    · simp [_cosine_similarity, hlen', hz]
  · intro hz
    simp [_cosine_similarity, hlen', hz]
  · intro hz
    have hz' : sqrt (sumSquares a) = 0 ∨ sqrt (sumSquares b) = 0 := by
      rcases hz with h | h
      · left
        rw [h] at ha ⊢
        exact mul_self_eq_zero.mp ha
      · right
        rw [h] at hb ⊢
        exact mul_self_eq_zero.mp hb
    simp [_cosine_similarity, hlen', hz']

/-- C7 witness: against the zero vector the similarity is exactly 0 (the
magnitude of `[0,0]` is 0, so the zero guard fires instead of dividing). -/
theorem cosine_similarity_spec_witness :
    _cosine_similarity sqrt25 [3, 4] [0, 0] = 0 :=
  (cosine_similarity_spec sqrt25 [3, 4] [0, 0] rfl
    (by norm_num [sqrt25, sumSquares])
    (by norm_num [sqrt25, sumSquares])).2.2
    (Or.inr (by norm_num [sumSquares]))

/-- C6 amended: the 0.1 s replacement applies exactly when the provisional
start `video_start + position_ratio · duration` is 0 for an index > 0 (and
the video-end reclamp does not fire, i.e. 0.1 ≤ video_end): then the returned
start timestamp is exactly 0.1 s. -/
theorem timestamp_zero_start_replaced (text : String) (segs : List TranscriptionSegment)
    (idx : ℕ) (hidx : 0 < idx)
    (h0 : videoStart segs + position_ratio segs idx * (videoEnd segs - videoStart segs) = 0)
    (hve : (1 : ℚ)/10 ≤ videoEnd segs) :
    (_find_timestamps_for_text text segs idx).1 = 1/10 := by
  simp only [_find_timestamps_for_text]
  rw [if_pos (And.intro hidx h0)]
  rw [if_neg (not_lt.mpr hve)]

/-- C6 witness: on a video running from −19 s to 1 s with one 1-character
segment, chunk index 1 gets position ratio 0.95, so the provisional start is
−19 + 0.95·20 = 0 and the code replaces it by 0.1. -/
theorem timestamp_zero_start_replaced_witness :
    (_find_timestamps_for_text "x" c6aSegs 1).1 = 1/10 := by
  have httl : totalTextLength c6aSegs = 1 := by decide
  have hr : position_ratio c6aSegs 1 = 19/20 := by
    unfold position_ratio estimated_total_chunks
    rw [httl]
    norm_num
  exact timestamp_zero_start_replaced "x" c6aSegs 1 (by norm_num)
    (by rw [hr]; show (-19 : ℚ) + 19/20 * (1 - -19) = 0; norm_num)
    (by show (1 : ℚ)/10 ≤ 1; norm_num)

/-- C6 counterexample: under the configured fixed strategy, a 500-character
segment over a 0.01 s video yields a second chunk (index 1) whose
reconstructed start timestamp is 1/125 s — strictly between 0 and the claimed
0.1 s floor, so the floor does not hold: the code replaces the start only
when it is exactly 0. -/
theorem timestamp_floor_counterexample :
    ((chunk_transcription fixedStrategy c6segs "v").getD 1 dummyChunk).chunk_index = 1 ∧
    0 < ((chunk_transcription fixedStrategy c6segs "v").getD 1 dummyChunk).start_timestamp ∧
    ((chunk_transcription fixedStrategy c6segs "v").getD 1 dummyChunk).start_timestamp < 1/10 := by
  have hs : ((chunk_transcription fixedStrategy c6segs "v").getD 1 dummyChunk).start_timestamp
      = (_find_timestamps_for_text
          (pySlice (_combine_segments c6segs) 400 (400 + fixedStrategy.max_chunk_size)) c6segs 1).1 := rfl
  have httl : totalTextLength c6segs = 500 := by decide
  have hvs : videoStart c6segs = 0 := rfl
  have hve : videoEnd c6segs = 1/100 := rfl
  have hratio : position_ratio c6segs 1 = 4/5 := by
    unfold position_ratio estimated_total_chunks
    rw [httl]
    norm_num
  have hval : (_find_timestamps_for_text
      (pySlice (_combine_segments c6segs) 400 (400 + fixedStrategy.max_chunk_size)) c6segs 1).1
      = 1/125 := by
    simp only [_find_timestamps_for_text]
    rw [hratio, hvs, hve]
    rw [if_neg (by norm_num : ¬ (0 < 1 ∧ (0 : ℚ) + 4/5 * (1/100 - 0) = 0))]
    rw [if_neg (by norm_num : ¬ ((1 : ℚ)/100 < 0 + 4/5 * (1/100 - 0)))]
    norm_num
  refine ⟨by decide, ?_, ?_⟩
  · rw [hs, hval]; norm_num
  · rw [hs, hval]; norm_num

/-- A slice starting at `i` with upper bound `i + n` has length at most `n`. -/
theorem pySlice_length_le (s : String) (i n : ℕ) : (pySlice s i (i + n)).length ≤ n := by
  simp only [pySlice, String.length, Nat.add_sub_cancel_left]
  exact List.length_take_le _ _

/-- Every chunk emitted by the semantic loop comes from
`_create_chunk_from_text` with a text of length at least `min_chunk_size`. -/
theorem semantic_loop_mem (cfg : ChunkingStrategy) (segs : List TranscriptionSegment)
    (vid : String) (ss : List String) :
    ∀ (cur : List String) (cl idx : ℕ) (c : Chunk),
      c ∈ _semantic_loop cfg segs vid ss cur cl idx →
      ∃ t i, c = _create_chunk_from_text cfg segs vid t i ∧ cfg.min_chunk_size ≤ t.length := by
  induction ss with
  | nil =>
    intro cur cl idx c hc
    simp only [_semantic_loop] at hc
    split_ifs at hc <;>
      first
      | exact absurd hc (List.not_mem_nil c)
      | exact ⟨_, _, List.mem_singleton.mp hc, by assumption⟩
  | cons s rest ih =>
    intro cur cl idx c hc
    simp only [_semantic_loop] at hc
    split_ifs at hc <;>
      first
      | exact ih _ _ _ _ hc
      | (rcases List.mem_cons.mp hc with hceq | hm
         · exact ⟨_, _, hceq, by assumption⟩
         · exact ih _ _ _ _ hm)

/-- Every chunk emitted by the recursive loop comes from
`_create_chunk_from_text` with a text of length in
`[min_chunk_size, max_chunk_size]`. -/
theorem recursive_loop_mem (cfg : ChunkingStrategy) (segs : List TranscriptionSegment)
    (vid : String) (text : String) (idxs : List ℕ) :
    ∀ (idx : ℕ) (c : Chunk), c ∈ _recursive_loop cfg segs vid text idxs idx →
      ∃ t i, c = _create_chunk_from_text cfg segs vid t i ∧
        cfg.min_chunk_size ≤ t.length ∧ t.length ≤ cfg.max_chunk_size := by
  induction idxs with
  | nil => intro idx c hc; simp [_recursive_loop] at hc
  | cons i rest ih =>
    intro idx c hc
    simp only [_recursive_loop] at hc
    split_ifs at hc with h1
    · rcases List.mem_cons.mp hc with hceq | hm
      · exact ⟨_, _, hceq, h1, pySlice_length_le text i cfg.max_chunk_size⟩
      · exact ih _ _ hm
    · exact ih _ _ hc

/-- Every chunk emitted by the speaker-aware loop comes from
`_create_chunk_from_text` with a text of length at least `min_chunk_size`. -/
theorem video_loop_mem (cfg : ChunkingStrategy) (segs : List TranscriptionSegment)
    (vid : String) (work : List TranscriptionSegment) :
    ∀ (cur : List String) (cl idx : ℕ) (spk : Option String) (c : Chunk),
      c ∈ _video_loop cfg segs vid work cur cl idx spk →
      ∃ t i, c = _create_chunk_from_text cfg segs vid t i ∧ cfg.min_chunk_size ≤ t.length := by
  induction work with
  | nil =>
    intro cur cl idx spk c hc
    simp only [_video_loop] at hc
    split_ifs at hc <;>
      first
      | exact absurd hc (List.not_mem_nil c)
      | exact ⟨_, _, List.mem_singleton.mp hc, by assumption⟩
  | cons seg rest ih =>
    intro cur cl idx spk c hc
    simp only [_video_loop] at hc
    split_ifs at hc <;>
      first
      | exact ih _ _ _ _ _ hc
      | (rcases List.mem_cons.mp hc with hceq | hm
         · exact ⟨_, _, hceq, by assumption⟩
         · exact ih _ _ _ _ _ hm)

/-- Every chunk emitted by the fixed loop comes from
`_create_chunk_from_text`. -/
theorem fixed_loop_mem (cfg : ChunkingStrategy) (segs : List TranscriptionSegment)
    (vid : String) (text : String) (idxs : List ℕ) :
    ∀ (idx : ℕ) (c : Chunk), c ∈ _fixed_loop cfg segs vid text idxs idx →
      ∃ t i, c = _create_chunk_from_text cfg segs vid t i := by
  induction idxs with
  | nil => intro idx c hc; simp [_fixed_loop] at hc
  | cons i rest ih =>
    intro idx c hc
    simp only [_fixed_loop] at hc
    rcases List.mem_cons.mp hc with hceq | hm
    · exact ⟨_, _, hceq⟩
    · exact ih _ _ hm

/-- C3 counterexample: under the configured semantic strategy
(max 400, min 100, overlap 50), a single 451-character sentence is emitted as
one chunk of length 451 > 450 = max_chunk_size + overlap, refuting the
claimed upper bound. -/
theorem semantic_chunk_exceeds_size_bound :
    (chunk_transcription semanticStrategy seg451 "v").map (fun c => c.text.length) = [451] ∧
    semanticStrategy.max_chunk_size + semanticStrategy.overlap = 450 := by
  exact ⟨by decide, by decide⟩

/-- C3 amended: every chunk emitted by the semantic, recursive and
video_optimized strategies (the last included) has text length at least
`min_chunk_size`; recursive chunks additionally never exceed
`max_chunk_size`; no upper bound holds for semantic/video_optimized chunks
(see the counterexample), so only the lower bound is claimed for them. -/
theorem chunk_size_invariant (cfg : ChunkingStrategy) (text : String)
    (segs : List TranscriptionSegment) (vid : String) :
    (∀ c ∈ _semantic_chunking cfg text segs vid, cfg.min_chunk_size ≤ c.text.length) ∧
    (∀ c ∈ _recursive_chunking cfg text segs vid,
      cfg.min_chunk_size ≤ c.text.length ∧ c.text.length ≤ cfg.max_chunk_size) ∧
    (∀ c ∈ _video_optimized_chunking cfg text segs vid, cfg.min_chunk_size ≤ c.text.length) := by
  refine ⟨?_, ?_, ?_⟩
  · intro c hc
    obtain ⟨t, i, rfl, hmin⟩ := semantic_loop_mem cfg segs vid _ _ _ _ c hc
    simpa [_create_chunk_from_text] using hmin
  · intro c hc
    obtain ⟨t, i, rfl, hmin, hmax⟩ := recursive_loop_mem cfg segs vid text _ _ c hc
    exact ⟨by simpa [_create_chunk_from_text] using hmin,
           by simpa [_create_chunk_from_text] using hmax⟩
  · intro c hc
    obtain ⟨t, i, rfl, hmin⟩ := video_loop_mem cfg segs vid _ _ _ _ _ c hc
    simpa [_create_chunk_from_text] using hmin

/-- C3 witness: the one semantic chunk of the 451-character sentence meets
the 100-character minimum. -/
theorem chunk_size_invariant_witness :
    semanticStrategy.min_chunk_size ≤
      ((_semantic_chunking semanticStrategy longSentence seg451 "v").headD dummyChunk).text.length := by
  have h : _semantic_chunking semanticStrategy longSentence seg451 "v" ≠ [] := by decide
  exact (chunk_size_invariant semanticStrategy longSentence seg451 "v").1 _ (headD_mem _ _ h)

/-- The position ratio is never negative. -/
theorem position_ratio_nonneg (segs : List TranscriptionSegment) (idx : ℕ) :
    0 ≤ position_ratio segs idx := by
  unfold position_ratio
  split_ifs with hlt
  · have hest : 0 < estimated_total_chunks segs := lt_of_le_of_lt (Nat.cast_nonneg idx) hlt
    exact div_nonneg (Nat.cast_nonneg idx) hest.le
  · norm_num

/-- The position ratio is always strictly below 1 (either `idx/est` with
`idx < est`, or the constant 0.95). -/
theorem position_ratio_lt_one (segs : List TranscriptionSegment) (idx : ℕ) :
    position_ratio segs idx < 1 := by
  unfold position_ratio
  split_ifs with hlt
  · have hest : 0 < estimated_total_chunks segs := lt_of_le_of_lt (Nat.cast_nonneg idx) hlt
    exact (div_lt_one hest).mpr hlt
  · norm_num

/-- For a positive chunk index the position ratio is strictly positive. -/
theorem position_ratio_pos (segs : List TranscriptionSegment) (idx : ℕ) (h : 0 < idx) :
    0 < position_ratio segs idx := by
  unfold position_ratio
  split_ifs with hlt
  · have hest : 0 < estimated_total_chunks segs := lt_of_le_of_lt (Nat.cast_nonneg idx) hlt
    have hidx : (0 : ℚ) < (idx : ℚ) := by exact_mod_cast h
    exact div_pos hidx hest
  · norm_num

/-- Bounds of the timestamp reconstruction: when the video has nonnegative
start and positive duration, the returned pair satisfies
`video_start ≤ start ≤ end ≤ video_end`. -/
theorem find_timestamps_bounds (text : String) (segs : List TranscriptionSegment) (idx : ℕ)
    (h1 : 0 ≤ videoStart segs) (h2 : videoStart segs < videoEnd segs) :
    videoStart segs ≤ (_find_timestamps_for_text text segs idx).1 ∧
    (_find_timestamps_for_text text segs idx).1 ≤ (_find_timestamps_for_text text segs idx).2 ∧
    (_find_timestamps_for_text text segs idx).2 ≤ videoEnd segs := by
  have hr0 := position_ratio_nonneg segs idx
  have hr1 := position_ratio_lt_one segs idx
  have hcd : 10 ≤ chunk_duration segs text := le_max_left _ _
  simp only [_find_timestamps_for_text]
  set vs := videoStart segs with hvs
  set ve := videoEnd segs with hve
  set r := position_ratio segs idx with hrdef
  set cd := chunk_duration segs text with hcddef
  have hst0lo : vs ≤ vs + r * (ve - vs) := by nlinarith
  have hst0hi : vs + r * (ve - vs) < ve := by nlinarith
  have hfix : ¬ (0 < idx ∧ vs + r * (ve - vs) = 0) := by
    rintro ⟨hidx, hzero⟩
    have hrpos : 0 < r := position_ratio_pos segs idx hidx
    nlinarith
  rw [if_neg hfix, if_neg (not_lt.mpr hst0hi.le)]
  refine ⟨hst0lo, ?_, ?_⟩
  · split_ifs with hclamp
    · exact hst0hi.le
    · linarith
  · split_ifs with hclamp
    · exact le_refl ve
    · exact not_lt.mp hclamp

/-- C4: for every strategy configuration and every chunk produced by
`chunk_transcription` from a segment list with nonnegative start and positive
duration, `video_start ≤ start_timestamp ≤ end_timestamp ≤ video_end`. -/
theorem chunk_timestamp_ordering (cfg : ChunkingStrategy) (segs : List TranscriptionSegment)
    (vid : String) (h1 : 0 ≤ videoStart segs) (h2 : videoStart segs < videoEnd segs) :
    ∀ c ∈ chunk_transcription cfg segs vid,
      videoStart segs ≤ c.start_timestamp ∧
      c.start_timestamp ≤ c.end_timestamp ∧
      c.end_timestamp ≤ videoEnd segs := by
  intro c hc
  have hshape : ∃ t i, c = _create_chunk_from_text cfg segs vid t i := by
    unfold chunk_transcription _semantic_chunking _recursive_chunking
      _video_optimized_chunking _fixed_chunking at hc
    split_ifs at hc
    · obtain ⟨t, i, h, -⟩ := semantic_loop_mem cfg segs vid _ _ _ _ c hc
      exact ⟨t, i, h⟩
    · obtain ⟨t, i, h, -, -⟩ := recursive_loop_mem cfg segs vid _ _ _ c hc
      exact ⟨t, i, h⟩
    · obtain ⟨t, i, h, -⟩ := video_loop_mem cfg segs vid _ _ _ _ _ c hc
      exact ⟨t, i, h⟩
    · exact fixed_loop_mem cfg segs vid _ _ _ c hc
  obtain ⟨t, i, rfl⟩ := hshape
  have hb := find_timestamps_bounds t segs i h1 h2
  simpa [_create_chunk_from_text] using hb

/-- C4 witness: the single fixed chunk of the Scenario A segments satisfies
the ordering (its timestamps are 0 and 20, within [0, 20]). -/
theorem chunk_timestamp_ordering_witness :
    videoStart segsA ≤
      ((chunk_transcription fixedStrategy segsA "v1").headD dummyChunk).start_timestamp ∧
    ((chunk_transcription fixedStrategy segsA "v1").headD dummyChunk).start_timestamp ≤
      ((chunk_transcription fixedStrategy segsA "v1").headD dummyChunk).end_timestamp ∧
    ((chunk_transcription fixedStrategy segsA "v1").headD dummyChunk).end_timestamp ≤
      videoEnd segsA := by
  have h : chunk_transcription fixedStrategy segsA "v1" ≠ [] := by decide
  exact chunk_timestamp_ordering fixedStrategy segsA "v1" (by decide) (by decide)
    _ (headD_mem _ _ h)

/-- An element of the deduplicated list occurs in the original list. -/
theorem dedupKeepFirstAux_subset (l : List String) :
    ∀ (seen : List String) (x : String), x ∈ dedupKeepFirstAux l seen → x ∈ l := by
  induction l with
  | nil => intro seen x hx; simp [dedupKeepFirstAux] at hx
  | cons y ys ih =>
    intro seen x hx
    simp only [dedupKeepFirstAux] at hx
    split_ifs at hx with h
    · exact List.mem_cons_of_mem y (ih seen x hx)
    · rcases List.mem_cons.mp hx with rfl | hx'
      · exact List.mem_cons_self x ys
      · exact List.mem_cons_of_mem y (ih (y :: seen) x hx')

/-- Once every element of the list has been seen, nothing is kept. -/
theorem dedupKeepFirstAux_nil (l : List String) :
    ∀ seen : List String, (∀ x ∈ l, x ∈ seen) → dedupKeepFirstAux l seen = [] := by
  induction l with
  | nil => intro seen _; rfl
  | cons y ys ih =>
    intro seen hall
    have hy : seen.contains y = true := by
      simpa [List.elem_iff] using hall y (List.mem_cons_self y ys)
    simp only [dedupKeepFirstAux, hy, if_true]
    exact ih seen fun x hx => hall x (List.mem_cons_of_mem y hx)

/-- Deduplicating a non-empty constant list yields the one element. -/
theorem dedupKeepFirst_const (l : List String) (v : String)
    (hall : ∀ x ∈ l, x = v) (hne : l ≠ []) : dedupKeepFirst l = [v] := by
  cases l with
  | nil => exact absurd rfl hne
  | cons y ys =>
    have hy : y = v := hall y (List.mem_cons_self y ys)
    subst hy
    show dedupKeepFirstAux (y :: ys) [] = [y]
    simp only [dedupKeepFirstAux, List.contains_nil, Bool.false_eq_true, if_false]
    rw [dedupKeepFirstAux_nil ys [y]]
    intro x hx
    have : x = y := hall x (List.mem_cons_of_mem y hx)
    simp [this]

/-- In an association list with pairwise-distinct keys, lookup of a present
key finds its value. -/
theorem lookup_eq_of_pairwise_ne {l : List (String × String)} {a b : String}
    (hp : l.Pairwise (fun p q => p.1 ≠ q.1)) (hm : (a, b) ∈ l) : l.lookup a = some b := by
  induction l with
  | nil => simp at hm
  | cons p rest ih =>
    rcases List.mem_cons.mp hm with rfl | hm'
    · simp [List.lookup]
    · have hne : a ≠ p.1 := by
        have := (List.pairwise_cons.mp hp).1 (a, b) hm'
        exact fun h => this h.symm
      have hbeq : (a == p.1) = false := by simpa using hne
      rw [show p = (p.1, p.2) from rfl, List.lookup, hbeq]
      exact ih (List.pairwise_cons.mp hp).2 hm'

/-- A member of the left list of an equal-length zip appears as a first
component of the zip. -/
theorem exists_zip_left {α β : Type} :
    ∀ (l1 : List α) (l2 : List β), l1.length = l2.length → ∀ a ∈ l1, ∃ b, (a, b) ∈ l1.zip l2 := by
  intro l1
  induction l1 with
  | nil => intro l2 _ a ha; simp at ha
  | cons x xs ih =>
    intro l2 hlen a ha
    cases l2 with
    | nil => simp at hlen
    | cons y ys =>
      rcases List.mem_cons.mp ha with rfl | ha'
      · exact ⟨y, List.mem_cons_self _ _⟩
      · obtain ⟨b, hb⟩ := ih ys (by simpa using hlen) a ha'
        exact ⟨b, List.mem_cons_of_mem _ hb⟩

/-- Pairwise relations on the left list transfer to an equal-or-shorter zip. -/
theorem pairwise_zip_left {α β : Type} {R : α → α → Prop} :
    ∀ (l1 : List α) (l2 : List β), l1.Pairwise R → (l1.zip l2).Pairwise (fun p q => R p.1 q.1) := by
  intro l1
  induction l1 with
  | nil => intro l2 _; simp
  | cons x xs ih =>
    intro l2 hp
    cases l2 with
    | nil => simp
    | cons y ys =>
      rw [List.zip_cons_cons]
      refine List.Pairwise.cons ?_ (ih ys (List.pairwise_cons.mp hp).2)
      intro q hq
      have := List.of_mem_zip hq
      exact (List.pairwise_cons.mp hp).1 q.1 this.1

/-- When every listed element maps to `some` of `g`, `filterMap` is `map`. -/
theorem filterMap_eq_map_of_forall {α β : Type} (l : List α) (f : α → Option β) (g : α → β)
    (h : ∀ a ∈ l, f a = some (g a)) : l.filterMap f = l.map g := by
  induction l with
  | nil => rfl
  | cons x xs ih =>
    rw [List.filterMap_cons, h x (List.mem_cons_self x xs), List.map_cons,
      ih fun a ha => h a (List.mem_cons_of_mem x ha)]

/-- C1 amended: re-ingesting a video's chunks is idempotent when the video is
new to the store and the chunks' normalized texts are pairwise distinct: the
second call writes no rows (the store is returned unchanged) and reports
success. -/
theorem insert_chunks_idempotent (v : String) (store : List Row) (chunks : List Chunk)
    (emb1 emb2 : List (List ℚ))
    (hv : ∀ c ∈ chunks, c.video_id = v)
    (hfresh : ∀ r ∈ store, r.video_id ≠ v)
    (hdist : chunks.Pairwise (fun a b => _get_content_hash a.text ≠ _get_content_hash b.text))
    (hlen1 : emb1.length = chunks.length) (hlen2 : emb2.length = chunks.length) :
    insert_chunks false (insert_chunks false store chunks emb1).1 chunks emb2
      = ((insert_chunks false store chunks emb1).1, true) := by
  have hstorefilter : store.filter (fun r => r.video_id == v) = [] := by
    rw [List.filter_eq_nil_iff]
    intro r hr
    simpa using hfresh r hr
  have hex1 : _check_existing_chunks false store chunks = [] := by
    simp only [_check_existing_chunks, if_neg (by simp : ¬ (false = true))]
    rw [List.flatMap_eq_nil_iff]
    intro vid hvid
    have hvid' : vid = v := by
      have hmem := dedupKeepFirstAux_subset _ _ _ hvid
      obtain ⟨c, hc, rfl⟩ := List.mem_map.mp hmem
      exact hv c hc
    subst hvid'
    simp only [checkVideoExisting, hstorefilter]
    rfl
  set rows1 := (chunks.zip emb1).map (fun p => chunkToRow p.1 p.2) with hrows1def
  have hs1 : (insert_chunks false store chunks emb1).1 = store ++ rows1 := by
    simp only [insert_chunks, hex1]
    simp
  rcases eq_or_ne chunks [] with rfl | hne
  · simp only [insert_chunks, _check_existing_chunks, List.map_nil, List.zip_nil_left,
      List.filter_nil, List.map_nil, List.append_nil]
  have hmapne : chunks.map (fun c => c.video_id) ≠ [] := by
    simpa using hne
  have hdedup : dedupKeepFirst (chunks.map (fun c => c.video_id)) = [v] := by
    refine dedupKeepFirst_const _ v ?_ hmapne
    intro x hx
    obtain ⟨c, hc, rfl⟩ := List.mem_map.mp hx
    exact hv c hc
  have hrowsvid : ∀ r ∈ rows1, r.video_id = v := by
    intro r hr
    obtain ⟨p, hp, rfl⟩ := List.mem_map.mp hr
    exact hv p.1 (List.of_mem_zip hp).1
  have hfilter1 : (store ++ rows1).filter (fun r => r.video_id == v) = rows1 := by
    rw [List.filter_append, hstorefilter, List.nil_append]
    exact List.filter_eq_self.mpr fun r hr => by simpa using hrowsvid r hr
  have hzipne : chunks.zip emb1 ≠ [] := by
    intro h
    have hlen0 : chunks.length = 0 := by
      have := congrArg List.length h
      rwa [List.length_zip, hlen1, Nat.min_self, List.length_nil] at this
    exact hne (List.length_eq_zero.mp hlen0)
  have hrows1ne : rows1 ≠ [] := fun h => hzipne (by simpa [hrows1def] using h)
  have hassoc : rows1.map (fun r => (_get_content_hash r.chunk_text, chunkKey r.video_id r.chunk_index))
      = (chunks.zip emb1).map
          (fun p => (_get_content_hash p.1.text, chunkKey p.1.video_id p.1.chunk_index)) := by
    rw [hrows1def, List.map_map]
    rfl
  have hkeys : ((chunks.zip emb1).map
      (fun p => (_get_content_hash p.1.text, chunkKey p.1.video_id p.1.chunk_index))).Pairwise
        (fun p q => p.1 ≠ q.1) := by
    rw [List.pairwise_map]
    exact pairwise_zip_left chunks emb1 hdist
  have hlk : ∀ c ∈ chunks,
      (contentHashMap rows1).lookup (_get_content_hash c.text) = some (chunkKey v c.chunk_index) := by
    intro c hc
    unfold contentHashMap
    rw [hassoc]
    apply lookup_eq_of_pairwise_ne
    · rw [List.pairwise_reverse]
      exact hkeys.imp fun h => h.symm
    · rw [List.mem_reverse]
      obtain ⟨e, he⟩ := exists_zip_left chunks emb1 hlen1.symm c hc
      refine List.mem_map.mpr ⟨(c, e), he, ?_⟩
      rw [hv c hc]
  have hempty : rows1.isEmpty = false := by
    cases hrows : rows1 with
    | nil => exact absurd hrows hrows1ne
    | cons r rs => rfl
  have hfiltchunks : chunks.filter (fun c => c.video_id == v) = chunks :=
    List.filter_eq_self.mpr fun c hc => by simpa using hv c hc
  have hex2 : _check_existing_chunks false (store ++ rows1) chunks
      = chunks.map (fun c => chunkKey v c.chunk_index) := by
    simp only [_check_existing_chunks, if_neg (by simp : ¬ (false = true)), hdedup]
    rw [show ([v].flatMap (checkVideoExisting (store ++ rows1) chunks))
        = checkVideoExisting (store ++ rows1) chunks v by simp]
    simp only [checkVideoExisting, hfilter1, hempty]
    rw [if_neg (by simp : ¬ (false = true))]
    rw [hfiltchunks]
    exact filterMap_eq_map_of_forall _ _ _ hlk
  rw [hs1]
  simp only [insert_chunks, hex2]
  have hnew : (chunks.zip emb2).filter
      (fun p => !((chunks.map (fun c => chunkKey v c.chunk_index)).contains
        (chunkKey p.1.video_id p.1.chunk_index))) = [] := by
    rw [List.filter_eq_nil_iff]
    intro p hp
    have hp1 : p.1 ∈ chunks := (List.of_mem_zip hp).1
    have hmem : chunkKey p.1.video_id p.1.chunk_index
        ∈ chunks.map (fun c => chunkKey v c.chunk_index) := by
      refine List.mem_map.mpr ⟨p.1, hp1, ?_⟩
      rw [hv p.1 hp1]
    simp [List.elem_iff, hmem]
  rw [hnew]
  simp

/-- C1 witness: re-ingesting two distinct-text chunks of a fresh video
leaves the two persisted rows unchanged and reports success. -/
theorem insert_chunks_idempotent_witness :
    insert_chunks false (insert_chunks false [] c1OkChunks [[1], [2]]).1 c1OkChunks [[3], [4]]
      = ((insert_chunks false [] c1OkChunks [[1], [2]]).1, true) :=
  insert_chunks_idempotent "v1" [] c1OkChunks [[1], [2]] [[3], [4]]
    (by decide) (by decide) (by decide) (by decide) (by decide)

/-- C1 counterexample: for a video whose chunk list contains two chunks with
identical normalized text under different indexes, re-ingesting the identical
list writes one more row (2 rows after the first call, 3 after the second),
so the second call does not write 0 new records. -/
theorem insert_chunks_reingest_writes_again :
    (insert_chunks false [] c1DupChunks [[1], [1]]).1.length = 2 ∧
    (insert_chunks false (insert_chunks false [] c1DupChunks [[1], [1]]).1
      c1DupChunks [[1], [1]]).1.length = 3 ∧
    (insert_chunks false (insert_chunks false [] c1DupChunks [[1], [1]]).1
      c1DupChunks [[1], [1]]).2 = true := by
  exact ⟨by decide, by decide, by decide⟩

/-- C8: the retriever's ranking contract. For every query vector, store,
optional scope and limit: (1) at most `limit` records are returned; (2) the
returned records' similarities are in descending order; (3) the returned
similarity list is exactly the first `limit` entries of the descending
stable sort of all valid in-scope records' similarities (top-N); (4) for
every similarity value, the returned records carrying it appear as a
sublist of the in-scope valid records in fetch order (stable ties). -/
theorem search_ranking_contract (sqrt : ℚ → ℚ) (store : List Row) (q : List ℚ)
    (video_id : Option String) (limit : ℕ) :
    (search_similar_chunks sqrt store q video_id limit).length ≤ limit ∧
    List.Sorted qGE ((search_similar_chunks sqrt store q video_id limit).map
      (fun r => _cosine_similarity sqrt q r.embedding)) ∧
    (search_similar_chunks sqrt store q video_id limit).map
        (fun r => _cosine_similarity sqrt q r.embedding)
      = (((validRows (scopeFilter store video_id)).map
          (fun r => _cosine_similarity sqrt q r.embedding)).insertionSort qGE).take limit ∧
    ∀ s : ℚ, List.Sublist
      ((search_similar_chunks sqrt store q video_id limit).filter
        (fun r => decide (_cosine_similarity sqrt q r.embedding = s)))
      ((validRows (scopeFilter store video_id)).filter
        (fun r => decide (_cosine_similarity sqrt q r.embedding = s))) := by
  by_cases hemp : (scopeFilter store video_id).isEmpty = true
  · have hscope : scopeFilter store video_id = [] := List.isEmpty_iff.mp hemp
    have hres : search_similar_chunks sqrt store q video_id limit = [] := by
      simp [search_similar_chunks, hemp]
    rw [hres, hscope]
    simp [validRows]
  · set sim : Row → ℚ := fun r => _cosine_similarity sqrt q r.embedding with hsim
    set valid := validRows (scopeFilter store video_id) with hvalid
    set keyed := valid.map (fun r => (r, sim r)) with hkeyed
    set sorted := keyed.insertionSort simGE with hsorted
    have hres : search_similar_chunks sqrt store q video_id limit
        = (sorted.take limit).map Prod.fst := by
      simp only [search_similar_chunks]
      rw [if_neg hemp]
    have hinv : ∀ p ∈ sorted, p.2 = sim p.1 := by
      intro p hp
      have hp' : p ∈ keyed := ((List.perm_insertionSort simGE keyed).mem_iff).mp hp
      rw [hkeyed] at hp'
      obtain ⟨r, hr, rfl⟩ := List.mem_map.mp hp'
      rfl
    have hlen : ((sorted.take limit).map Prod.fst).length ≤ limit := by
      rw [List.length_map]
      exact List.length_take_le _ _
    have hsortedpair : List.Pairwise simGE sorted := List.sorted_insertionSort simGE keyed
    have htakepair : List.Pairwise simGE (sorted.take limit) :=
      hsortedpair.sublist (List.take_sublist _ _)
    have hmapsnd : ((sorted.take limit).map Prod.fst).map sim
        = (sorted.take limit).map Prod.snd := by
      rw [List.map_map]
      refine List.map_congr_left ?_
      intro p hp
      exact (hinv p (List.mem_of_mem_take hp)).symm
    have hsorted2 : List.Sorted qGE ((sorted.take limit).map Prod.snd) :=
      List.pairwise_map.mpr htakepair
    have hmapsort : sorted.map Prod.snd = (keyed.map Prod.snd).insertionSort qGE := by
      rw [hsorted]
      exact List.map_insertionSort simGE qGE Prod.snd keyed (fun a _ b _ => Iff.rfl)
    have hkeyedsnd : keyed.map Prod.snd = valid.map sim := by
      rw [hkeyed, List.map_map]
      rfl
    have hconj3 : ((sorted.take limit).map Prod.fst).map sim
        = ((valid.map sim).insertionSort qGE).take limit := by
      rw [hmapsnd, List.map_take, hmapsort, hkeyedsnd]
    have hstable : ∀ s : ℚ, sorted.filter (fun p => decide (p.2 = s))
        = keyed.filter (fun p => decide (p.2 = s)) := by
      intro s
      have hc : (keyed.filter (fun p => decide (p.2 = s))).Pairwise simGE := by
        refine List.pairwise_of_forall_mem_list ?_
        intro x hx y hy
        have hx2 : x.2 = s := of_decide_eq_true (List.mem_filter.mp hx).2
        have hy2 : y.2 = s := of_decide_eq_true (List.mem_filter.mp hy).2
        show y.2 ≤ x.2
        rw [hx2, hy2]
      have hsub : List.Sublist (keyed.filter (fun p => decide (p.2 = s))) sorted :=
        List.sublist_insertionSort hc (List.filter_sublist _)
      have hidem : (keyed.filter (fun p => decide (p.2 = s))).filter
            (fun p => decide (p.2 = s))
          = keyed.filter (fun p => decide (p.2 = s)) :=
        List.filter_eq_self.mpr fun a ha => (List.mem_filter.mp ha).2
      have hsub2 : List.Sublist (keyed.filter (fun p => decide (p.2 = s)))
          (sorted.filter (fun p => decide (p.2 = s))) := by
        have h := hsub.filter (fun p => decide (p.2 = s))
        rwa [hidem] at h
      have hperm : List.Perm (sorted.filter (fun p => decide (p.2 = s)))
          (keyed.filter (fun p => decide (p.2 = s))) :=
        (List.perm_insertionSort simGE keyed).filter _
      exact (hsub2.eq_of_length hperm.length_eq.symm).symm
    have hconj4 : ∀ s : ℚ, List.Sublist
        (((sorted.take limit).map Prod.fst).filter (fun r => decide (sim r = s)))
        (valid.filter (fun r => decide (sim r = s))) := by
      intro s
      rw [List.filter_map]
      have hcongr : (sorted.take limit).filter ((fun r => decide (sim r = s)) ∘ Prod.fst)
          = (sorted.take limit).filter (fun p => decide (p.2 = s)) := by
        refine List.filter_congr ?_
        intro p hp
        have h2 := hinv p (List.mem_of_mem_take hp)
        simp [Function.comp, h2]
      rw [hcongr]
      have hsub : List.Sublist ((sorted.take limit).filter (fun p => decide (p.2 = s)))
          (sorted.filter (fun p => decide (p.2 = s))) :=
        (List.take_sublist _ _).filter _
      rw [hstable s] at hsub
      have hmapped := hsub.map Prod.fst
      have hkf : (keyed.filter (fun p => decide (p.2 = s))).map Prod.fst
          = valid.filter (fun r => decide (sim r = s)) := by
        rw [hkeyed, List.filter_map, List.map_map]
        rw [show (Prod.fst ∘ fun r => (r, sim r)) = id from rfl, List.map_id]
        rfl
      rw [← hkf]
      exact hmapped
    rw [hres]
    refine ⟨hlen, ?_, hconj3, hconj4⟩
    rw [hmapsnd]
    exact hsorted2

/-- C8 witness: with a one-row store, the search returns at most the limit
and its ranked similarity list is the truncated sorted similarity list. -/
theorem search_ranking_contract_witness :
    (search_similar_chunks sqrt25 c2store [1] none 5).length ≤ 5 :=
  (search_ranking_contract sqrt25 c2store [1] none 5).1
